import Mathlib

/-!
Verification of the LRU cache engine and its shard router.

The engine (`lru_cache_int.go` and its per-key-type clones) keeps a
recency-ordered list of entries (most recently used first), an index from
keys to list elements, a running total `size` and a `capacity`.  We embed
the engine as a pure state-transition system: the index is represented by
the list itself (the Go code keeps the map and the list in bijection), and
every operation returns the new state together with the list of purge
notifications it fired.  The eviction loop in `checkCapacity` dereferences
the list tail without a nil check, so an operation that reaches the loop
with an empty list and `size > capacity` panics in Go; we model that
outcome as `none`.
-/

/-- Reasons for a cached element to be deleted from the cache
(`lru_cache_interface.go`). -/
inductive PurgeReason where
  | CACHEFULL
  | DELETE
  | UPDATE
  | CLEAR_ALL
deriving DecidableEq, Repr

/-- The two optional capabilities a cached value may carry: `sizeAware`
models the `SizeAware` interface (`none` = not implemented), `hasPurger`
models whether the value implements `OnPurger`. -/
structure Caps (V : Type) where
  sizeAware : V → Option Int
  hasPurger : V → Bool

/-- `getSize` from `lru_cache_interface.go`: a value reporting its own size
uses that report, otherwise the size is 1. -/
def getSize {V : Type} (c : Caps V) (x : V) : Int :=
  match c.sizeAware x with
  | some s => s
  | none => 1

/-- `safeOnPurge` from `lru_cache_interface.go`: notify the value only when
it implements the purge-observer capability.  We record the notification as
an event `(value, reason)`; values without the capability produce no event. -/
def safeOnPurge {V : Type} (c : Caps V) (x : V) (why : PurgeReason) :
    List (V × PurgeReason) :=
  if c.hasPurger x then [(x, why)] else []

/-- One cached item (`intEntry` in the Go source): key, value and the size
captured at insertion/update time. -/
structure Entry (K V : Type) where
  key : K
  value : V
  size : Int
deriving DecidableEq, Repr

/-- Engine state (`LRUCacheInt`): recency list (MRU first), running size
total, and capacity.  The key index is the list itself. -/
structure LRUCache (K V : Type) where
  list : List (Entry K V)
  size : Int
  capacity : Int
deriving DecidableEq, Repr

/-- `NewLRUCacheInt`: empty cache with the given capacity. -/
def newLRUCache (K V : Type) (capacity : Int) : LRUCache K V :=
  { list := [], size := 0, capacity := capacity }

/-- Purge-notification events fired by an operation, in firing order. -/
def Events (V : Type) : Type := List (V × PurgeReason)

/-- Table lookup `lru.table[k]`: the entry for key `k`, if indexed. -/
def findEntry {K V : Type} [DecidableEq K] (l : List (Entry K V)) (k : K) :
    Option (Entry K V) :=
  l.find? (fun e => decide (e.key = k))

/-- The eviction loop of `checkCapacity`, running over the REVERSED recency
list (so its head is the LRU tail element).  While `size > capacity`, it
removes the head, subtracts its size and fires a `CACHEFULL` notification;
reaching an empty list with `size > capacity` dereferences a nil element in
Go, modelled as `none`. -/
def evictLoop {K V : Type} (c : Caps V) (cap : Int) :
    List (Entry K V) → Int → Option (List (Entry K V) × Int × List (V × PurgeReason))
  | rl, size =>
    if size ≤ cap then some (rl, size, [])
    else
      match rl with
      | [] => none
      | e :: rest =>
        match evictLoop c cap rest (size - e.size) with
        | none => none
        | some (rl2, s2, evs) =>
          some (rl2, s2, safeOnPurge c e.value PurgeReason.CACHEFULL ++ evs)

/-- `checkCapacity`: evict from the tail until `size <= capacity`. -/
def LRUCache.checkCapacity {K V : Type} (c : Caps V) (st : LRUCache K V) :
    Option (LRUCache K V × List (V × PurgeReason)) :=
  match evictLoop c st.capacity st.list.reverse st.size with
  | none => none
  | some (rl, s, evs) =>
    some ({ list := rl.reverse, size := s, capacity := st.capacity }, evs)

/-- `addNew`: push a fresh entry at the MRU front, add its size to the
running total, then run `checkCapacity`. -/
def LRUCache.addNew {K V : Type} (c : Caps V) (st : LRUCache K V) (k : K) (v : V) :
    Option (LRUCache K V × List (V × PurgeReason)) :=
  let sz := getSize c v
  LRUCache.checkCapacity c
    { list := { key := k, value := v, size := sz } :: st.list,
      size := st.size + sz, capacity := st.capacity }

/-- `updateInplace`: fire `UPDATE` on the old value, replace value and size
of the element in place adjusting the running total by the delta, move the
element to the front, then run `checkCapacity`.  The moved element is
identified by its key `k`; `e` is the entry the table lookup returned. -/
def LRUCache.updateInplace {K V : Type} [DecidableEq K] (c : Caps V)
    (st : LRUCache K V) (e : Entry K V) (k : K) (v : V) :
    Option (LRUCache K V × List (V × PurgeReason)) :=
  let sz := getSize c v
  match LRUCache.checkCapacity c
      { list := { key := k, value := v, size := sz } ::
          st.list.eraseP (fun x => decide (x.key = k)),
        size := st.size + (sz - e.size), capacity := st.capacity } with
  | none => none
  | some res =>
    some (res.1, safeOnPurge c e.value PurgeReason.UPDATE ++ res.2)

/-- `set` (the body of `Set`): `updateInplace` when the key is indexed,
otherwise `addNew`. -/
def LRUCache.set {K V : Type} [DecidableEq K] (c : Caps V) (st : LRUCache K V)
    (k : K) (v : V) : Option (LRUCache K V × List (V × PurgeReason)) :=
  match findEntry st.list k with
  | some e => LRUCache.updateInplace c st e k v
  | none => LRUCache.addNew c st k v

/-- `SetIfAbsent`: when the key is indexed, only move it to the front (no
value change, no size change, no notification); otherwise `addNew`. -/
def LRUCache.setIfAbsent {K V : Type} [DecidableEq K] (c : Caps V)
    (st : LRUCache K V) (k : K) (v : V) :
    Option (LRUCache K V × List (V × PurgeReason)) :=
  match findEntry st.list k with
  | some e =>
    some ({ list := e :: st.list.eraseP (fun e => decide (e.key = k)),
            size := st.size, capacity := st.capacity }, [])
  | none => LRUCache.addNew c st k v

/-- `Delete`: remove the entry when indexed, subtract its size, fire a
`DELETE` notification, and report whether it existed.  `Delete` never runs
the eviction loop, so it always completes. -/
def LRUCache.delete {K V : Type} [DecidableEq K] (c : Caps V)
    (st : LRUCache K V) (k : K) :
    Bool × LRUCache K V × List (V × PurgeReason) :=
  match findEntry st.list k with
  | none => (false, st, [])
  | some e =>
    (true,
     { list := st.list.eraseP (fun e => decide (e.key = k)),
       size := st.size - e.size, capacity := st.capacity },
     safeOnPurge c e.value PurgeReason.DELETE)

/-- `Clear`: fire `CLEAR_ALL` for every entry front-to-back, then empty the
structure and reset the size to zero. -/
def LRUCache.clear {K V : Type} (c : Caps V) (st : LRUCache K V) :
    LRUCache K V × List (V × PurgeReason) :=
  ({ list := [], size := 0, capacity := st.capacity },
   (st.list.map (fun e => safeOnPurge c e.value PurgeReason.CLEAR_ALL)).flatten)

/-- `SetCapacity`: store the new capacity, then run `checkCapacity`. -/
def LRUCache.setCapacity {K V : Type} (c : Caps V) (st : LRUCache K V)
    (cap : Int) : Option (LRUCache K V × List (V × PurgeReason)) :=
  LRUCache.checkCapacity c
    { list := st.list, size := st.size, capacity := cap }

/-- `Get`: on a hit, move the entry to the front and return its value with
`true`; on a miss, consult the optional miss-loader: a loader hit is
inserted through `set` and the loader value is returned with `true`, a
loader miss (or no loader) returns `(none, false)` and changes nothing. -/
def LRUCache.get {K V : Type} [DecidableEq K] (c : Caps V) (st : LRUCache K V)
    (k : K) (onMiss : Option (K → Option V)) :
    Option ((Option V × Bool) × LRUCache K V × List (V × PurgeReason)) :=
  match findEntry st.list k with
  | some e =>
    some ((some e.value, true),
          { list := e :: st.list.eraseP (fun e => decide (e.key = k)),
            size := st.size, capacity := st.capacity }, [])
  | none =>
    match onMiss with
    | none => some ((none, false), st, [])
    | some f =>
      match f k with
      | none => some ((none, false), st, [])
      | some v =>
        match LRUCache.set c st k v with
        | none => none
        | some res => some ((some v, true), res.1, res.2)

/-- `Keys`: the keys in recency order, most recently used first. -/
def LRUCache.keys {K V : Type} (st : LRUCache K V) : List K :=
  st.list.map (fun e => e.key)

/-- Shard router state (`ShardLRUCacheKeyUint64` in `part_004` of the
source): a shard count and the list of shard engines. -/
structure ShardLRU (K V : Type) where
  shardCount : Int
  cachelist : List (LRUCache K V)
deriving DecidableEq, Repr

/-- The per-shard capacities the router assigns for a given shard count:
shard `i` receives the quotient `q`, except the last shard which also
receives the remainder `r`.  This mirrors the `if i == shardCount-1`
branch of the construction and `SetCapacity` loops. -/
def assignedCaps (n : Nat) (q r : Int) : List Int :=
  (List.range n).map (fun i => if i = n - 1 then q + r else q)

/-- `NewShardLRUCacheKeyUint64`: coerce the shard count to at least 1,
split the capacity by Go integer division (truncation toward zero) with
the remainder folded into the last shard, and build one engine per shard. -/
def newShardLRU (K V : Type) (shardCount capacity : Int) : ShardLRU K V :=
  let n := if shardCount < 1 then 1 else shardCount
  let q := Int.tdiv capacity n
  let r := capacity - q * n
  { shardCount := n,
    cachelist := (assignedCaps n.toNat q r).map (fun cp => newLRUCache K V cp) }

/-- The router `SetCapacity` loop body: walk the per-shard capacity list,
applying the engine `SetCapacity` to each successive shard; running out of
shards while capacities remain is an out-of-range index in Go (`none`). -/
def setCapList {K V : Type} (c : Caps V) :
    List Int → List (LRUCache K V) →
    Option (List (LRUCache K V) × List (V × PurgeReason))
  | [], rest => some (rest, [])
  | _ :: _, [] => none
  | cap :: caps, st :: rest =>
    match LRUCache.setCapacity c st cap with
    | none => none
    | some res =>
      match setCapList c caps rest with
      | none => none
      | some res2 => some (res.1 :: res2.1, res.2 ++ res2.2)

/-- `ShardLRUCacheKeyUint64.SetCapacity`: recompute the per-shard split
from the stored shard count and apply it shard by shard. -/
def ShardLRU.setCapacity {K V : Type} (c : Caps V) (sh : ShardLRU K V)
    (capacity : Int) : Option (ShardLRU K V × List (V × PurgeReason)) :=
  let q := Int.tdiv capacity sh.shardCount
  let r := capacity - q * sh.shardCount
  match setCapList c (assignedCaps sh.shardCount.toNat q r) sh.cachelist with
  | none => none
  | some res =>
    some ({ shardCount := sh.shardCount, cachelist := res.1 }, res.2)

/-- `ShardLRUCacheKeyUint64.Stats`: sum the per-shard stats triples. -/
def ShardLRU.stats {K V : Type} (sh : ShardLRU K V) : Int × Int × Int :=
  ((sh.cachelist.map (fun st => (st.list.length : Int))).sum,
   (sh.cachelist.map (fun st => st.size)).sum,
   (sh.cachelist.map (fun st => st.capacity)).sum)

/-- `ShardLRUCacheKeyUint64.Capacity` AS WRITTEN in the source: the loop
body reads `lru.cachelist[idx].Size()` — it sums the shards' current
sizes, not their configured capacities. -/
def ShardLRU.capacityAccessor {K V : Type} (sh : ShardLRU K V) : Int :=
  (sh.cachelist.map (fun st => st.size)).sum

/-- Concrete capability assignment: integer values that report themselves
as their own size (like the `CacheValue` helper of the Go tests) and do not
observe purges. -/
def capsSz : Caps Int := { sizeAware := fun v => some v, hasPurger := fun _ => false }

/-- Concrete capability assignment: integer values that report themselves
as their own size and observe purges (like the purge-flag helpers of the Go
tests). -/
def capsP : Caps Int := { sizeAware := fun v => some v, hasPurger := fun _ => true }

/-- Concrete capability assignment: values with neither capability, so the
default size 1 applies. -/
def capsUnit : Caps Unit := { sizeAware := fun _ => none, hasPurger := fun _ => false }

/-- Reachable engine states: states produced from a freshly constructed
cache by any sequence of completed public operations.  An operation that
panics in the eviction loop produces no state. -/
inductive Reach {K V : Type} [DecidableEq K] (c : Caps V) : LRUCache K V → Prop where
  | new (capacity : Int) : Reach c (newLRUCache K V capacity)
  | set {st st2 : LRUCache K V} {k : K} {v : V} {evs : List (V × PurgeReason)} :
      Reach c st → LRUCache.set c st k v = some (st2, evs) → Reach c st2
  | setIfAbsent {st st2 : LRUCache K V} {k : K} {v : V}
      {evs : List (V × PurgeReason)} :
      Reach c st → LRUCache.setIfAbsent c st k v = some (st2, evs) → Reach c st2
  | delete {st : LRUCache K V} (k : K) :
      Reach c st → Reach c (LRUCache.delete c st k).2.1
  | clear {st : LRUCache K V} :
      Reach c st → Reach c (LRUCache.clear c st).1
  | setCapacity {st st2 : LRUCache K V} {cap : Int}
      {evs : List (V × PurgeReason)} :
      Reach c st → LRUCache.setCapacity c st cap = some (st2, evs) → Reach c st2
  | get {st st2 : LRUCache K V} {k : K} {f : Option (K → Option V)}
      {r : Option V × Bool} {evs : List (V × PurgeReason)} :
      Reach c st → LRUCache.get c st k f = some (r, st2, evs) → Reach c st2

/-! ### Characterization of the eviction loop -/

/-- If the eviction loop completes, it dropped some initial segment of the
reversed list (i.e. a tail segment of the recency list), the resulting size
is the input size minus the dropped sizes, the result satisfies the
capacity bound, and the events are exactly one `CACHEFULL` notification per
dropped purge-observing entry, in drop order. -/
theorem evictLoop_spec {K V : Type} (c : Caps V) (cap : Int) :
    ∀ (rl : List (Entry K V)) (size : Int)
      (out : List (Entry K V) × Int × List (V × PurgeReason)),
      evictLoop c cap rl size = some out →
      ∃ dropped, rl = dropped ++ out.1 ∧
        out.2.1 = size - (dropped.map (fun e => e.size)).sum ∧
        out.2.1 ≤ cap ∧
        out.2.2 =
          (dropped.map (fun e => safeOnPurge c e.value PurgeReason.CACHEFULL)).flatten := by
  intro rl
  induction rl with
  | nil =>
    intro size out h
    rw [evictLoop] at h
    split at h
    · cases h
      exact ⟨[], by simp, by simp, by assumption, by simp⟩
    · simp at h
  | cons e rest ih =>
    intro size out h
    rw [evictLoop] at h
    split at h
    · cases h
      exact ⟨[], by simp, by simp, by assumption, by simp⟩
    · rename_i hgt
      cases hrec : evictLoop c cap rest (size - e.size) with
      | none => rw [hrec] at h; simp at h
      | some out2 =>
        rw [hrec] at h
        obtain ⟨l2, s2, evs2⟩ := out2
        simp only [Option.some.injEq] at h
        obtain ⟨dropped, hd1, hd2, hd3, hd4⟩ := ih (size - e.size) (l2, s2, evs2) hrec
        subst h
        refine ⟨e :: dropped, ?_, ?_, hd3, ?_⟩
        · simpa using hd1
        · simp only [List.map_cons, List.sum_cons] at hd2 ⊢
          omega
        · have h4 : evs2 =
              (dropped.map (fun e => safeOnPurge c e.value PurgeReason.CACHEFULL)).flatten :=
            hd4
          simp [h4]

/-- If `checkCapacity` completes, the resulting recency list is an initial
segment (prefix) of the old one — the removed entries come from the tail,
never the head — the size drops by exactly the removed sizes, the capacity
bound holds afterwards, and the events are one `CACHEFULL` notification per
removed purge-observing entry, fired tail-first. -/
theorem checkCapacity_spec {K V : Type} (c : Caps V) (st : LRUCache K V)
    (st2 : LRUCache K V) (evs : List (V × PurgeReason))
    (h : LRUCache.checkCapacity c st = some (st2, evs)) :
    ∃ removed, st.list = st2.list ++ removed ∧
      st2.size = st.size - (removed.map (fun e => e.size)).sum ∧
      st2.size ≤ st.capacity ∧ st2.capacity = st.capacity ∧
      evs = (removed.reverse.map
        (fun e => safeOnPurge c e.value PurgeReason.CACHEFULL)).flatten := by
  rw [LRUCache.checkCapacity] at h
  cases hev : evictLoop c st.capacity st.list.reverse st.size with
  | none => rw [hev] at h; simp at h
  | some out =>
    obtain ⟨rl, s, evs2⟩ := out
    rw [hev] at h
    simp only [Option.some.injEq, Prod.mk.injEq] at h
    obtain ⟨hst, hevs⟩ := h
    obtain ⟨dropped, hd1, hd2, hd3, hd4⟩ :=
      evictLoop_spec c st.capacity st.list.reverse st.size (rl, s, evs2) hev
    subst hst
    subst hevs
    have h2 : s = st.size - (dropped.map (fun e => e.size)).sum := hd2
    have h3 : s ≤ st.capacity := hd3
    have h4 : evs2 =
        (dropped.map (fun e => safeOnPurge c e.value PurgeReason.CACHEFULL)).flatten :=
      hd4
    refine ⟨dropped.reverse, ?_, ?_, h3, rfl, ?_⟩
    · have hrev := congrArg List.reverse hd1
      simpa using hrev
    · simpa [List.map_reverse, List.sum_reverse] using h2
    · simpa using h4

/-- A successful table lookup returns an entry of the list whose key is the
one looked up. -/
theorem findEntry_some {K V : Type} [DecidableEq K] {l : List (Entry K V)}
    {k : K} {e : Entry K V} (h : findEntry l k = some e) :
    e.key = k ∧ e ∈ l := by
  rw [findEntry] at h
  have hp := List.find?_some h
  have hm := List.mem_of_find?_eq_some h
  simp only [decide_eq_true_eq] at hp
  exact ⟨hp, hm⟩

/-- A failed table lookup means no entry of the list has the key. -/
theorem findEntry_none {K V : Type} [DecidableEq K] {l : List (Entry K V)}
    {k : K} (h : findEntry l k = none) : ∀ e ∈ l, e.key ≠ k := by
  rw [findEntry, List.find?_eq_none] at h
  intro e he
  simpa using h e he

/-! ### C1: the eviction law -/

/-- C1: for every engine state and every operation that can increase the
size — a fresh insert through `set`, an in-place update through `set`, or a
capacity change through `setCapacity` — once the operation completes,
entries were removed only from the tail of the recency ordering (the final
list is a prefix of the grown list), each removal subtracted the removed
size from the running total and fired a `CACHEFULL` notification (tail
first), each removed key is no longer indexed, and the final state
satisfies `size ≤ capacity`. -/
theorem C1_capacity_enforcement {K V : Type} [DecidableEq K] (c : Caps V)
    (st st2 : LRUCache K V) (k : K) (v : V) (cap : Int)
    (evs : List (V × PurgeReason)) :
    (findEntry st.list k = none →
      LRUCache.set c st k v = some (st2, evs) →
      ∃ removed,
        { key := k, value := v, size := getSize c v } :: st.list =
          st2.list ++ removed ∧
        st2.size = st.size + getSize c v - (removed.map (fun e => e.size)).sum ∧
        st2.size ≤ st2.capacity ∧ st2.capacity = st.capacity ∧
        evs = (removed.reverse.map
          (fun e => safeOnPurge c e.value PurgeReason.CACHEFULL)).flatten ∧
        ((st.list.map (fun e => e.key)).Nodup →
          ∀ e ∈ removed, findEntry st2.list e.key = none)) ∧
    (∀ e0, findEntry st.list k = some e0 →
      LRUCache.set c st k v = some (st2, evs) →
      ∃ removed,
        { key := k, value := v, size := getSize c v } ::
            st.list.eraseP (fun e => decide (e.key = k)) =
          st2.list ++ removed ∧
        st2.size = st.size + (getSize c v - e0.size) -
          (removed.map (fun e => e.size)).sum ∧
        st2.size ≤ st2.capacity ∧ st2.capacity = st.capacity ∧
        evs = safeOnPurge c e0.value PurgeReason.UPDATE ++
          (removed.reverse.map
            (fun e => safeOnPurge c e.value PurgeReason.CACHEFULL)).flatten) ∧
    (LRUCache.setCapacity c st cap = some (st2, evs) →
      ∃ removed,
        st.list = st2.list ++ removed ∧
        st2.size = st.size - (removed.map (fun e => e.size)).sum ∧
        st2.size ≤ cap ∧ st2.capacity = cap ∧
        evs = (removed.reverse.map
          (fun e => safeOnPurge c e.value PurgeReason.CACHEFULL)).flatten) := by
  refine ⟨?_, ?_, ?_⟩
  · intro hfind hset
    rw [LRUCache.set, hfind, LRUCache.addNew] at hset
    obtain ⟨removed, h1, h2, h3, h4, h5⟩ := checkCapacity_spec c _ st2 evs hset
    refine ⟨removed, h1, h2, ?_, h4, h5, ?_⟩
    · rw [h4]; exact h3
    · intro hnd e2 he2
      have hk : k ∉ st.list.map (fun e => e.key) := by
        intro hmem
        obtain ⟨x, hx, hxk⟩ := List.mem_map.mp hmem
        exact findEntry_none hfind x hx hxk
      have h1a : { key := k, value := v, size := getSize c v } :: st.list =
          st2.list ++ removed := h1
      have hnd2 : (({ key := k, value := v, size := getSize c v } ::
          st.list).map (fun e => e.key)).Nodup := by
        simp only [List.map_cons]
        exact List.nodup_cons.mpr ⟨hk, hnd⟩
      rw [h1a, List.map_append] at hnd2
      have hdisj := (List.nodup_append.mp hnd2).2.2
      rw [findEntry, List.find?_eq_none]
      intro x hx
      simp only [decide_eq_true_eq]
      intro heq
      exact hdisj (List.mem_map_of_mem _ hx)
        (heq ▸ List.mem_map_of_mem (fun e => e.key) he2)
  · intro e0 hfind hset
    rw [LRUCache.set, hfind] at hset
    have hupd : LRUCache.updateInplace c st e0 k v = some (st2, evs) := hset
    rw [LRUCache.updateInplace] at hupd
    split at hupd
    · simp at hupd
    · rename_i res heq
      simp only [Option.some.injEq, Prod.mk.injEq] at hupd
      obtain ⟨hst, hevs⟩ := hupd
      obtain ⟨removed, h1, h2, h3, h4, h5⟩ :=
        checkCapacity_spec c _ res.1 res.2 (by rw [heq])
      subst hst
      refine ⟨removed, h1, h2, ?_, h4, ?_⟩
      · rw [h4]; exact h3
      · rw [← hevs, h5]
  · intro hset
    rw [LRUCache.setCapacity] at hset
    obtain ⟨removed, h1, h2, h3, h4, h5⟩ := checkCapacity_spec c _ st2 evs hset
    exact ⟨removed, h1, h2, h3, h4, h5⟩

/-- Witness for C1: capacity 2, one entry of size 1; a fresh insert of size
2 completes by evicting the tail entry, and the final state satisfies the
capacity bound. -/
theorem C1_capacity_enforcement_witness :
    LRUCache.set capsP
        { list := [{ key := 2, value := 1, size := 1 }], size := 1, capacity := 2 }
        1 2 =
      some ({ list := [{ key := 1, value := 2, size := 2 }], size := 2, capacity := 2 },
        [((1 : Int), PurgeReason.CACHEFULL)]) ∧
    ({ list := [{ key := (1 : Int), value := (2 : Int), size := 2 }], size := 2,
        capacity := 2 } : LRUCache Int Int).size ≤
      ({ list := [{ key := (1 : Int), value := (2 : Int), size := 2 }], size := 2,
          capacity := 2 } : LRUCache Int Int).capacity := by
  constructor
  · decide
  · obtain ⟨removed, h1, h2, h3, h4, h5, h6⟩ :=
      (C1_capacity_enforcement capsP
        { list := [{ key := 2, value := 1, size := 1 }], size := 1, capacity := 2 }
        { list := [{ key := 1, value := 2, size := 2 }], size := 2, capacity := 2 }
        1 2 0 [((1 : Int), PurgeReason.CACHEFULL)]).1 (by decide) (by decide)
    exact h3

/-! ### Size accounting along reachable states -/

/-- Decomposition of a successful table lookup: the list splits around the
found entry, `eraseP` with the key predicate removes exactly that
occurrence, and no earlier entry carries the key. -/
theorem find_erase_decomp {K V : Type} [DecidableEq K] :
    ∀ {l : List (Entry K V)} {k : K} {e : Entry K V},
      findEntry l k = some e →
      ∃ l1 l2, l = l1 ++ e :: l2 ∧
        l.eraseP (fun x => decide (x.key = k)) = l1 ++ l2 ∧
        ∀ x ∈ l1, x.key ≠ k := by
  intro l
  induction l with
  | nil =>
    intro k e h
    rw [findEntry] at h
    simp at h
  | cons a rest ih =>
    intro k e h
    rw [findEntry] at h
    by_cases hp : a.key = k
    · rw [List.find?_cons_of_pos _ (by simpa using hp)] at h
      cases h
      refine ⟨[], rest, by simp, ?_, by simp⟩
      rw [List.eraseP_cons_of_pos (by simpa using hp)]
      simp
    · rw [List.find?_cons_of_neg _ (by simpa using hp)] at h
      obtain ⟨l1, l2, h1, h2, h3⟩ := ih h
      refine ⟨a :: l1, l2, by simp [h1], ?_, ?_⟩
      · rw [List.eraseP_cons_of_neg (by simpa using hp), h2]
        simp
      · intro x hx
        rcases List.mem_cons.mp hx with rfl | hx2
        · exact hp
        · exact h3 x hx2

/-- Removing the found entry subtracts exactly its size from the summed
entry sizes. -/
theorem erase_sum {K V : Type} [DecidableEq K] {l : List (Entry K V)}
    {k : K} {e : Entry K V} (h : findEntry l k = some e) :
    ((l.eraseP (fun x => decide (x.key = k))).map (fun x => x.size)).sum =
      (l.map (fun x => x.size)).sum - e.size := by
  obtain ⟨l1, l2, h1, h2, _⟩ := find_erase_decomp h
  rw [h2, h1]
  simp only [List.map_append, List.sum_append, List.map_cons, List.sum_cons]
  ring

/-- Entries surviving `eraseP` were entries of the original list. -/
theorem erase_mem {K V : Type} [DecidableEq K] {l : List (Entry K V)}
    {k : K} {e : Entry K V} (h : findEntry l k = some e) :
    ∀ x ∈ l.eraseP (fun x => decide (x.key = k)), x ∈ l := by
  obtain ⟨l1, l2, h1, h2, _⟩ := find_erase_decomp h
  intro x hx
  rw [h2] at hx
  rw [h1]
  rcases List.mem_append.mp hx with hx1 | hx2
  · exact List.mem_append_left _ hx1
  · exact List.mem_append_right _ (List.mem_cons_of_mem _ hx2)

/-- A completed `checkCapacity` keeps the running total equal to the sum of
the remaining entry sizes, satisfies the capacity bound unconditionally,
and keeps only entries of the input list. -/
theorem checkCapacity_inv {K V : Type} (c : Caps V) {st st2 : LRUCache K V}
    {evs : List (V × PurgeReason)}
    (h : LRUCache.checkCapacity c st = some (st2, evs))
    (hsum : st.size = (st.list.map (fun e => e.size)).sum) :
    st2.size = (st2.list.map (fun e => e.size)).sum ∧
    st2.size ≤ st2.capacity ∧
    ((∀ e ∈ st.list, 0 ≤ e.size) → ∀ e ∈ st2.list, 0 ≤ e.size) := by
  obtain ⟨removed, h1, h2, h3, h4, h5⟩ := checkCapacity_spec c st st2 evs h
  refine ⟨?_, ?_, ?_⟩
  · rw [h2, hsum, h1]
    simp only [List.map_append, List.sum_append]
    ring
  · rw [h4]
    exact h3
  · intro hent e he
    refine hent e ?_
    rw [h1]
    exact List.mem_append_left _ he

/-- Moving the found entry to the front is a permutation: the summed sizes
are unchanged and every entry of the new list was in the old one. -/
theorem moveFront_inv {K V : Type} [DecidableEq K] {l : List (Entry K V)}
    {k : K} {e : Entry K V} (hfind : findEntry l k = some e) :
    ((e :: l.eraseP (fun x => decide (x.key = k))).map (fun x => x.size)).sum =
      (l.map (fun x => x.size)).sum ∧
    (∀ x ∈ e :: l.eraseP (fun x => decide (x.key = k)), x ∈ l) := by
  constructor
  · simp only [List.map_cons, List.sum_cons]
    rw [erase_sum hfind]
    ring
  · intro x hx
    rcases List.mem_cons.mp hx with rfl | hx2
    · exact (findEntry_some hfind).2
    · exact erase_mem hfind x hx2

/-- A completed `set` keeps the running total equal to the summed entry
sizes, satisfies the capacity bound, and keeps entry sizes nonnegative when
value sizes are nonnegative. -/
theorem set_inv {K V : Type} [DecidableEq K] (c : Caps V)
    {st st2 : LRUCache K V} {k : K} {v : V} {evs : List (V × PurgeReason)}
    (hop : LRUCache.set c st k v = some (st2, evs))
    (hsum : st.size = (st.list.map (fun e => e.size)).sum) :
    st2.size = (st2.list.map (fun e => e.size)).sum ∧
    st2.size ≤ st2.capacity ∧
    ((∀ w : V, 0 ≤ getSize c w) → (∀ e ∈ st.list, 0 ≤ e.size) →
      ∀ e ∈ st2.list, 0 ≤ e.size) := by
  cases hfind : findEntry st.list k with
  | none =>
    rw [LRUCache.set, hfind] at hop
    have hcc : LRUCache.checkCapacity c
        { list := { key := k, value := v, size := getSize c v } :: st.list,
          size := st.size + getSize c v, capacity := st.capacity } =
        some (st2, evs) := hop
    have hsum1 : st.size + getSize c v =
        ((({ key := k, value := v, size := getSize c v } : Entry K V) ::
          st.list).map (fun e => e.size)).sum := by
      simp only [List.map_cons, List.sum_cons]
      omega
    obtain ⟨ha, hb, hc⟩ := checkCapacity_inv c hcc hsum1
    refine ⟨ha, hb, ?_⟩
    intro hsz hent e he
    refine hc ?_ e he
    intro x hx
    rcases List.mem_cons.mp hx with rfl | hx2
    · exact hsz v
    · exact hent x hx2
  | some e0 =>
    rw [LRUCache.set, hfind] at hop
    have hupd : LRUCache.updateInplace c st e0 k v = some (st2, evs) := hop
    rw [LRUCache.updateInplace] at hupd
    split at hupd
    · simp at hupd
    · rename_i res heq
      simp only [Option.some.injEq, Prod.mk.injEq] at hupd
      obtain ⟨hst, hevs⟩ := hupd
      have hsum1 : st.size + (getSize c v - e0.size) =
          ((({ key := k, value := v, size := getSize c v } : Entry K V) ::
            st.list.eraseP (fun x => decide (x.key = k))).map
              (fun e => e.size)).sum := by
        simp only [List.map_cons, List.sum_cons]
        rw [erase_sum hfind]
        omega
      obtain ⟨ha, hb, hc⟩ := checkCapacity_inv c heq hsum1
      subst hst
      refine ⟨ha, hb, ?_⟩
      intro hsz hent e he
      refine hc ?_ e he
      intro x hx
      rcases List.mem_cons.mp hx with rfl | hx2
      · exact hsz v
      · exact hent x (erase_mem hfind x hx2)

/-- A completed `setIfAbsent` keeps accurate accounting; it keeps the
capacity bound outright when it inserts, and preserves it when it only
promotes. -/
theorem setIfAbsent_inv {K V : Type} [DecidableEq K] (c : Caps V)
    {st st2 : LRUCache K V} {k : K} {v : V} {evs : List (V × PurgeReason)}
    (hop : LRUCache.setIfAbsent c st k v = some (st2, evs))
    (hsum : st.size = (st.list.map (fun e => e.size)).sum) :
    st2.size = (st2.list.map (fun e => e.size)).sum ∧
    ((∀ w : V, 0 ≤ getSize c w) → (∀ e ∈ st.list, 0 ≤ e.size) →
      ∀ e ∈ st2.list, 0 ≤ e.size) ∧
    ((0 ≤ st.capacity → st.size ≤ st.capacity) →
      0 ≤ st2.capacity → st2.size ≤ st2.capacity) := by
  cases hfind : findEntry st.list k with
  | some e0 =>
    rw [LRUCache.setIfAbsent, hfind] at hop
    simp only [Option.some.injEq, Prod.mk.injEq] at hop
    obtain ⟨hst, hevs⟩ := hop
    subst hst
    obtain ⟨hmv1, hmv2⟩ := moveFront_inv hfind
    refine ⟨?_, ?_, ?_⟩
    · rw [hmv1]
      exact hsum
    · intro hsz hent e he
      exact hent e (hmv2 e he)
    · intro himp h0
      exact himp h0
  | none =>
    rw [LRUCache.setIfAbsent, hfind] at hop
    have hcc : LRUCache.checkCapacity c
        { list := { key := k, value := v, size := getSize c v } :: st.list,
          size := st.size + getSize c v, capacity := st.capacity } =
        some (st2, evs) := hop
    have hsum1 : st.size + getSize c v =
        ((({ key := k, value := v, size := getSize c v } : Entry K V) ::
          st.list).map (fun e => e.size)).sum := by
      simp only [List.map_cons, List.sum_cons]
      omega
    obtain ⟨ha, hb, hc⟩ := checkCapacity_inv c hcc hsum1
    refine ⟨ha, ?_, fun _ _ => hb⟩
    intro hsz hent e he
    refine hc ?_ e he
    intro x hx
    rcases List.mem_cons.mp hx with rfl | hx2
    · exact hsz v
    · exact hent x hx2

/-! ### C2: the size invariant -/

/-- C2 counterexample: the freshly constructed cache with capacity -1 is a
reachable at-rest state (no operation is in progress) whose size, 0,
already exceeds its capacity, so the claimed invariant `size ≤ capacity`
does not hold for every reachable state. -/
theorem C2_size_invariant_counterexample :
    Reach capsUnit (newLRUCache Int Unit (-1)) ∧
    ¬ ((newLRUCache Int Unit (-1)).size ≤ (newLRUCache Int Unit (-1)).capacity) :=
  ⟨Reach.new (-1), by decide⟩

/-- C2 amended: in every reachable at-rest state the running total equals
the sum of the cached entries' recorded sizes; and provided every value's
computed size is nonnegative, all recorded entry sizes are nonnegative and
`size ≤ capacity` holds whenever the current capacity is nonnegative (a
cache constructed with a negative capacity violates the bound until the
first completed eviction-running operation). -/
theorem C2_size_invariant_amended {K V : Type} [DecidableEq K] (c : Caps V)
    (st : LRUCache K V) (h : Reach c st) :
    st.size = (st.list.map (fun e => e.size)).sum ∧
    ((∀ w : V, 0 ≤ getSize c w) →
      (∀ e ∈ st.list, 0 ≤ e.size) ∧
      (0 ≤ st.capacity → st.size ≤ st.capacity)) := by
  induction h with
  | new cap =>
    exact ⟨rfl, fun _ => ⟨by simp [newLRUCache], fun hc => hc⟩⟩
  | set hr hop ih =>
    obtain ⟨ha, hb, hc⟩ := set_inv _ hop ih.1
    exact ⟨ha, fun hsz => ⟨hc hsz (ih.2 hsz).1, fun _ => hb⟩⟩
  | setIfAbsent hr hop ih =>
    obtain ⟨ha, hb, hc⟩ := setIfAbsent_inv _ hop ih.1
    exact ⟨ha, fun hsz => ⟨hb hsz (ih.2 hsz).1, hc (ih.2 hsz).2⟩⟩
  | delete k hr ih =>
    rename_i st0
    cases hfind : findEntry st0.list k with
    | none =>
      simp only [LRUCache.delete, hfind]
      exact ih
    | some e =>
      simp only [LRUCache.delete, hfind]
      refine ⟨?_, ?_⟩
      · rw [erase_sum hfind]
        have h1 := ih.1
        omega
      · intro hsz
        refine ⟨?_, ?_⟩
        · intro x hx
          exact (ih.2 hsz).1 x (erase_mem hfind x hx)
        · intro h0
          have hb := (ih.2 hsz).2 h0
          have he0 : 0 ≤ e.size := (ih.2 hsz).1 e (findEntry_some hfind).2
          omega
  | clear hr ih =>
    exact ⟨rfl, fun _ => ⟨by simp [LRUCache.clear], fun hc => hc⟩⟩
  | setCapacity hr hop ih =>
    rw [LRUCache.setCapacity] at hop
    obtain ⟨ha, hb, hc⟩ := checkCapacity_inv _ hop ih.1
    exact ⟨ha, fun hsz => ⟨hc (ih.2 hsz).1, fun _ => hb⟩⟩
  | get hr hop ih =>
    rename_i st0 st2 k f r evs
    cases hfind : findEntry st0.list k with
    | some e =>
      rw [LRUCache.get.eq_def, hfind] at hop
      simp only [Option.some.injEq, Prod.mk.injEq] at hop
      obtain ⟨-, hst, -⟩ := hop
      subst hst
      obtain ⟨hmv1, hmv2⟩ := moveFront_inv hfind
      refine ⟨?_, ?_⟩
      · rw [hmv1]
        exact ih.1
      · intro hsz
        refine ⟨?_, ?_⟩
        · intro x hx
          exact (ih.2 hsz).1 x (hmv2 x hx)
        · exact (ih.2 hsz).2
    | none =>
      rw [LRUCache.get.eq_def, hfind] at hop
      cases f with
      | none =>
        simp only [Option.some.injEq, Prod.mk.injEq] at hop
        obtain ⟨-, hst, -⟩ := hop
        subst hst
        exact ih
      | some fl =>
        dsimp only at hop
        cases hfk : fl k with
        | none =>
          rw [hfk] at hop
          simp only [Option.some.injEq, Prod.mk.injEq] at hop
          obtain ⟨-, hst, -⟩ := hop
          subst hst
          exact ih
        | some v =>
          rw [hfk] at hop
          dsimp only at hop
          split at hop
          · simp at hop
          · rename_i res heq
            simp only [Option.some.injEq, Prod.mk.injEq] at hop
            obtain ⟨-, hst, -⟩ := hop
            subst hst
            obtain ⟨ha, hb, hc⟩ := set_inv _ heq ih.1
            exact ⟨ha, fun hsz => ⟨hc hsz (ih.2 hsz).1, fun _ => hb⟩⟩

/-- Witness for C2 amended: instantiated at a freshly constructed cache of
capacity 5 over valueless entries (default size 1). -/
theorem C2_size_invariant_amended_witness :
    (newLRUCache Int Unit 5).size ≤ (newLRUCache Int Unit 5).capacity := by
  have h := C2_size_invariant_amended capsUnit (newLRUCache Int Unit 5) (Reach.new 5)
  exact (h.2 (fun w => by simp [getSize, capsUnit])).2 (by decide)

/-! ### C3: the notification law -/

/-- Every event fired by the eviction loop carries reason `CACHEFULL`. -/
theorem cachefull_events {K V : Type} (c : Caps V) (removed : List (Entry K V)) :
    ∀ p ∈ (removed.map
        (fun e => safeOnPurge c e.value PurgeReason.CACHEFULL)).flatten,
      p.2 = PurgeReason.CACHEFULL := by
  intro p hp
  rw [List.mem_flatten] at hp
  obtain ⟨le, hle, hpe⟩ := hp
  rw [List.mem_map] at hle
  obtain ⟨e, he, rfl⟩ := hle
  rw [safeOnPurge] at hpe
  split at hpe
  · rcases List.mem_singleton.mp hpe with rfl
    rfl
  · simp at hpe

/-- C3: exactly one purge notification fires per entry removal on a value
with the purge-observer capability, with the reason matching the cause:
`DELETE` for an explicit delete (and none for a miss), `CLEAR_ALL` once per
held entry on clear, `UPDATE` on the superseded old value (never the new
one) when `set` replaces an existing key — followed only by `CACHEFULL`
eviction events — `CACHEFULL` once per entry removed by the eviction loop,
and nothing at all for values without the capability. -/
theorem C3_notification_law {K V : Type} [DecidableEq K] (c : Caps V)
    (st st2 : LRUCache K V) (k : K) (v : V) (evs : List (V × PurgeReason)) :
    (∀ e, findEntry st.list k = some e →
      LRUCache.delete c st k =
        (true, { list := st.list.eraseP (fun x => decide (x.key = k)),
                 size := st.size - e.size, capacity := st.capacity },
         if c.hasPurger e.value then [(e.value, PurgeReason.DELETE)] else [])) ∧
    (findEntry st.list k = none → LRUCache.delete c st k = (false, st, [])) ∧
    ((LRUCache.clear c st).2 =
      (st.list.map (fun e =>
        if c.hasPurger e.value then [(e.value, PurgeReason.CLEAR_ALL)]
        else [])).flatten) ∧
    (∀ e, findEntry st.list k = some e →
      LRUCache.set c st k v = some (st2, evs) →
      ∃ evs2,
        evs = (if c.hasPurger e.value then [(e.value, PurgeReason.UPDATE)]
          else []) ++ evs2 ∧
        ∀ p ∈ evs2, p.2 = PurgeReason.CACHEFULL) ∧
    (∀ st3 evs3, LRUCache.checkCapacity c st = some (st3, evs3) →
      ∃ removed, st.list = st3.list ++ removed ∧
        evs3 = (removed.reverse.map (fun e =>
          if c.hasPurger e.value then [(e.value, PurgeReason.CACHEFULL)]
          else [])).flatten) ∧
    (∀ (w : V) (why : PurgeReason), c.hasPurger w = false →
      safeOnPurge c w why = []) := by
  refine ⟨?_, ?_, ?_, ?_, ?_, ?_⟩
  · intro e hfind
    rw [LRUCache.delete, hfind]
    rfl
  · intro hfind
    rw [LRUCache.delete, hfind]
  · rfl
  · intro e hfind hset
    rw [LRUCache.set, hfind] at hset
    have hupd : LRUCache.updateInplace c st e k v = some (st2, evs) := hset
    rw [LRUCache.updateInplace] at hupd
    split at hupd
    · simp at hupd
    · rename_i res heq
      simp only [Option.some.injEq, Prod.mk.injEq] at hupd
      obtain ⟨hst, hevs⟩ := hupd
      obtain ⟨removed, h1, h2, h3, h4, h5⟩ :=
        checkCapacity_spec c _ res.1 res.2 (by rw [heq])
      refine ⟨res.2, ?_, ?_⟩
      · rw [← hevs]
        rfl
      · rw [h5]
        exact cachefull_events c removed.reverse
  · intro st3 evs3 hcc
    obtain ⟨removed, h1, h2, h3, h4, h5⟩ := checkCapacity_spec c st st3 evs3 hcc
    exact ⟨removed, h1, h5⟩
  · intro w why hw
    rw [safeOnPurge, hw]
    simp

/-- Witness for C3: a delete of the only entry of a concrete cache of
purge-observing values fires exactly one `DELETE` notification carrying the
removed value. -/
theorem C3_notification_law_witness :
    LRUCache.delete capsP
        { list := [{ key := 1, value := 5, size := 5 }], size := 5, capacity := 10 } 1 =
      (true, { list := [], size := 0, capacity := 10 },
       [((5 : Int), PurgeReason.DELETE)]) := by
  have h := (C3_notification_law capsP
    { list := [{ key := 1, value := 5, size := 5 }], size := 5, capacity := 10 }
    { list := [], size := 0, capacity := 10 } 1 0 []).1
    { key := 1, value := 5, size := 5 } (by decide)
  rw [h]
  decide

/-! ### C4: zero and negative capacity -/

/-- A list of nonnegative integers with nonpositive sum is all zeros. -/
theorem sum_nonneg_all_zero :
    ∀ (l : List Int), (∀ x ∈ l, 0 ≤ x) → l.sum ≤ 0 → ∀ x ∈ l, x = 0 := by
  intro l
  induction l with
  | nil => intro _ _ x hx; simp at hx
  | cons a t ih =>
    intro hpos hsum x hx
    have hts : 0 ≤ t.sum := List.sum_nonneg (fun y hy => hpos y (List.mem_cons_of_mem _ hy))
    have ha : 0 ≤ a := hpos a (List.mem_cons_self a t)
    rw [List.sum_cons] at hsum
    rcases List.mem_cons.mp hx with rfl | hx2
    · omega
    · exact ih (fun y hy => hpos y (List.mem_cons_of_mem _ hy)) (by omega) x hx2

/-- Run of the eviction loop at capacity 0 over a reversed list whose old
entries all have size 0 and whose final (MRU) element carries the whole
positive size: everything is evicted, ending at size 0. -/
theorem evictLoop_flush {K V : Type} (c : Caps V) :
    ∀ (rl : List (Entry K V)) (en : Entry K V) (sz : Int),
      (∀ e ∈ rl, e.size = 0) → 0 < sz → en.size = sz →
      evictLoop c 0 (rl ++ [en]) sz =
        some ([], 0,
          (rl.map (fun e => safeOnPurge c e.value PurgeReason.CACHEFULL)).flatten ++
            safeOnPurge c en.value PurgeReason.CACHEFULL) := by
  intro rl
  induction rl with
  | nil =>
    intro en sz hz hpos hsz
    have h0 : evictLoop c 0 ([] : List (Entry K V)) (sz - en.size) =
        some ([], sz - en.size, []) := by
      rw [evictLoop, if_pos (by omega)]
    rw [List.nil_append, evictLoop, if_neg (by omega), h0]
    simp only [List.map_nil, List.flatten_nil, List.nil_append, List.append_nil]
    have : sz - en.size = 0 := by omega
    rw [this]
  | cons a rest ih =>
    intro en sz hz hpos hsz
    have ha : a.size = 0 := hz a (List.mem_cons_self a rest)
    have hrec := ih en sz (fun e he => hz e (List.mem_cons_of_mem _ he)) hpos hsz
    rw [List.cons_append, evictLoop, if_neg (by omega)]
    have hsub : sz - a.size = sz := by omega
    rw [hsub, hrec]
    simp [List.append_assoc]

/-- C4 counterexample: at capacity 0, an entry whose size capability
reports 0 is NOT evicted by its insert: the call completes with the entry
still indexed and no notification fired, contradicting the claim that
every newly inserted entry — including size-0 values — is immediately
evicted when capacity is 0 or negative. -/
theorem C4_zero_capacity_counterexample :
    LRUCache.set capsSz (newLRUCache Int Int 0) 1 0 =
      some ({ list := [{ key := 1, value := 0, size := 0 }], size := 0,
              capacity := 0 }, []) ∧
    findEntry [{ key := (1 : Int), value := (0 : Int), size := 0 }] 1 =
      some { key := 1, value := 0, size := 0 } := by
  constructor
  · decide
  · decide

/-- C4 amended: at capacity exactly 0, from any at-rest state with accurate
accounting, every insert of a value with positive computed size — `set` on
an absent key, `setIfAbsent` on an absent key, or a miss-loader hit in
`get` — completes (zero capacity is accepted, not special-cased), leaves
the cache empty, so the entry that was just inserted and indexed is
evicted again within the same call, and fires a `CACHEFULL` notification
on the new value when it observes purges.  Values of computed size 0 are
retained instead, and a strictly negative capacity makes the eviction loop
hit the nil tail of the emptied list, so the claim is restricted to
capacity 0 and positive sizes. -/
theorem C4_zero_capacity_amended {K V : Type} [DecidableEq K] (c : Caps V)
    (st : LRUCache K V) (k : K) (v : V)
    (hcap : st.capacity = 0)
    (hsum : st.size = (st.list.map (fun e => e.size)).sum)
    (hent : ∀ e ∈ st.list, 0 ≤ e.size)
    (hrest : st.size ≤ st.capacity)
    (habs : findEntry st.list k = none)
    (hpos : 0 < getSize c v) :
    ∃ evs,
      LRUCache.set c st k v =
        some ({ list := [], size := 0, capacity := st.capacity }, evs) ∧
      LRUCache.setIfAbsent c st k v =
        some ({ list := [], size := 0, capacity := st.capacity }, evs) ∧
      (∀ f : K → Option V, f k = some v →
        LRUCache.get c st k (some f) =
          some ((some v, true),
            { list := [], size := 0, capacity := st.capacity }, evs)) ∧
      (c.hasPurger v = true → (v, PurgeReason.CACHEFULL) ∈ evs) := by
  have hnn : 0 ≤ (st.list.map (fun e => e.size)).sum :=
    List.sum_nonneg (by
      intro x hx
      obtain ⟨e, he, rfl⟩ := List.mem_map.mp hx
      exact hent e he)
  have hs0 : st.size = 0 := by omega
  have hz : ∀ e ∈ st.list, e.size = 0 := by
    intro e he
    exact sum_nonneg_all_zero (st.list.map (fun x => x.size))
      (by
        intro x hx
        obtain ⟨e2, he2, rfl⟩ := List.mem_map.mp hx
        exact hent e2 he2)
      (by omega) e.size (List.mem_map_of_mem _ he)
  have hflush := evictLoop_flush c st.list.reverse
    { key := k, value := v, size := getSize c v } (getSize c v)
    (fun e he => hz e (List.mem_reverse.mp he)) hpos rfl
  have hcc : LRUCache.checkCapacity c
      { list := { key := k, value := v, size := getSize c v } :: st.list,
        size := st.size + getSize c v, capacity := st.capacity } =
      some ({ list := [], size := 0, capacity := st.capacity },
        (st.list.reverse.map
          (fun e => safeOnPurge c e.value PurgeReason.CACHEFULL)).flatten ++
          safeOnPurge c v PurgeReason.CACHEFULL) := by
    simp only [LRUCache.checkCapacity]
    rw [List.reverse_cons, hcap]
    rw [show st.size + getSize c v = getSize c v by omega]
    rw [hflush]
    rfl
  refine ⟨(st.list.reverse.map
      (fun e => safeOnPurge c e.value PurgeReason.CACHEFULL)).flatten ++
      safeOnPurge c v PurgeReason.CACHEFULL, ?_, ?_, ?_, ?_⟩
  · rw [LRUCache.set, habs]
    exact hcc
  · rw [LRUCache.setIfAbsent, habs]
    exact hcc
  · intro f hf
    have hset : LRUCache.set c st k v =
        some ({ list := [], size := 0, capacity := st.capacity },
          (st.list.reverse.map
            (fun e => safeOnPurge c e.value PurgeReason.CACHEFULL)).flatten ++
            safeOnPurge c v PurgeReason.CACHEFULL) := by
      rw [LRUCache.set, habs]
      exact hcc
    rw [LRUCache.get.eq_def, habs]
    dsimp only
    rw [hf]
    dsimp only
    rw [hset]
  · intro hp
    refine List.mem_append.mpr (Or.inr ?_)
    rw [safeOnPurge, hp]
    simp

/-- Witness for C4 amended: inserting a size-2 purge-observing value into a
fresh cache of capacity 0 completes with an empty cache and fires
`CACHEFULL` on the value. -/
theorem C4_zero_capacity_amended_witness :
    ∃ evs, LRUCache.set capsP (newLRUCache Int Int 0) 1 2 =
      some ({ list := [], size := 0, capacity := 0 }, evs) ∧
      ((2 : Int), PurgeReason.CACHEFULL) ∈ evs := by
  obtain ⟨evs, h1, h2, h3, h4⟩ :=
    C4_zero_capacity_amended capsP (newLRUCache Int Int 0) 1 2 rfl rfl
      (by intro e he; simp [newLRUCache] at he) (by decide) (by decide) (by decide)
  exact ⟨evs, h1, h4 rfl⟩

/-! ### C5: the shard router capacity accessor -/

/-- C5: the `Capacity()` accessor of the shard router, embedded exactly as
written (its loop body reads each shard's `Size()`), returns 0 on a
freshly built router of 2 shards with total capacity 7, while the capacity
component of `Stats()` returns the configured total 7 — the accessor sums
current sizes instead of configured capacities, contradicting both the
claim and its own doc comment. -/
theorem C5_capacity_accessor_bug :
    ShardLRU.capacityAccessor (newShardLRU Int Unit 2 7) = 0 ∧
    (ShardLRU.stats (newShardLRU Int Unit 2 7)).2.2 = 7 ∧
    ((0 : Int) ≠ 7) := by
  refine ⟨by decide, by decide, by decide⟩

/-! ### C6: the recency law -/

/-- C6 counterexample: with capacity 5 and key 1 currently indexed with
size 1, `set` of a value of size 10 on key 1 completes by evicting the
whole list including the just-updated entry, so afterwards key 1 is not
the first element of `keys` — `keys` is empty. -/
theorem C6_recency_counterexample :
    LRUCache.set capsSz
        { list := [{ key := 1, value := 1, size := 1 }], size := 1, capacity := 5 }
        1 10 =
      some ({ list := [], size := 0, capacity := 5 }, []) ∧
    (LRUCache.keys ({ list := [], size := 0, capacity := 5 } :
      LRUCache Int Int)).head? ≠ some 1 := by
  constructor
  · decide
  · decide

/-- C6 amended: when key `k` is indexed, after a completed `get` of `k` the
key is the first element of `keys`; after a completed `set` of `k` the key
is the first element of `keys` unless the capacity-enforcement loop evicted
every entry including the updated one, in which case `keys` is empty. -/
theorem C6_recency_amended {K V : Type} [DecidableEq K] (c : Caps V)
    (st st2 : LRUCache K V) (k : K) (v : V) (e : Entry K V)
    (r : Option V × Bool) (evs : List (V × PurgeReason))
    (f : Option (K → Option V)) :
    (findEntry st.list k = some e →
      LRUCache.get c st k f = some (r, st2, evs) →
      (LRUCache.keys st2).head? = some k) ∧
    (findEntry st.list k = some e →
      LRUCache.set c st k v = some (st2, evs) →
      (LRUCache.keys st2).head? = some k ∨ st2.list = []) := by
  constructor
  · intro hfind hop
    rw [LRUCache.get.eq_def, hfind] at hop
    simp only [Option.some.injEq, Prod.mk.injEq] at hop
    obtain ⟨-, hst, -⟩ := hop
    subst hst
    simp only [LRUCache.keys, List.map_cons, List.head?_cons]
    exact congrArg some (findEntry_some hfind).1
  · intro hfind hop
    rw [LRUCache.set, hfind] at hop
    have hupd : LRUCache.updateInplace c st e k v = some (st2, evs) := hop
    rw [LRUCache.updateInplace] at hupd
    split at hupd
    · simp at hupd
    · rename_i res heq
      simp only [Option.some.injEq, Prod.mk.injEq] at hupd
      obtain ⟨hst, -⟩ := hupd
      obtain ⟨removed, h1, -, -, -, -⟩ :=
        checkCapacity_spec c _ res.1 res.2 (by rw [heq])
      subst hst
      have h1a : { key := k, value := v, size := getSize c v } ::
          st.list.eraseP (fun x => decide (x.key = k)) =
          res.1.list ++ removed := h1
      cases hl : res.1.list with
      | nil => exact Or.inr rfl
      | cons x rest =>
        refine Or.inl ?_
        rw [hl, List.cons_append] at h1a
        have hx : ({ key := k, value := v, size := getSize c v } : Entry K V) = x :=
          ((List.cons.injEq _ _ _ _).mp h1a).1
        simp only [LRUCache.keys, hl, List.map_cons, List.head?_cons]
        rw [← hx]

/-- Witness for C6 amended: a concrete hit promotes the key to the front of
`keys`, and a concrete in-place update that survives eviction keeps the key
first. -/
theorem C6_recency_amended_witness :
    (LRUCache.keys (⟨[⟨2, 7, 7⟩, ⟨1, 1, 1⟩], 8, 10⟩ : LRUCache Int Int)).head? =
      some 2 := by
  have h := (C6_recency_amended capsSz
    (⟨[⟨1, 1, 1⟩, ⟨2, 7, 7⟩], 8, 10⟩ : LRUCache Int Int)
    (⟨[⟨2, 7, 7⟩, ⟨1, 1, 1⟩], 8, 10⟩ : LRUCache Int Int)
    2 0 ⟨2, 7, 7⟩ (some 7, true) [] none).1 (by decide) (by decide)
  exact h

/-! ### C7: miss-loader integration -/

/-- C7: on a `get` of an unindexed key, a configured miss-loader is
consulted; a loader hit is inserted as a new entry exactly as `set` would
and `(value, true)` is returned, a loader miss returns `(none, false)` with
the state unchanged and no events, and with no loader configured the same
`(none, false)` outcome results — a miss is an ordinary return value, not
an error. -/
theorem C7_miss_loader {K V : Type} [DecidableEq K] (c : Caps V)
    (st : LRUCache K V) (k : K) (f : K → Option V)
    (habs : findEntry st.list k = none) :
    LRUCache.get c st k none = some ((none, false), st, []) ∧
    (f k = none → LRUCache.get c st k (some f) = some ((none, false), st, [])) ∧
    (∀ v st2 evs, f k = some v → LRUCache.set c st k v = some (st2, evs) →
      LRUCache.get c st k (some f) = some ((some v, true), st2, evs)) := by
  refine ⟨?_, ?_, ?_⟩
  · rw [LRUCache.get.eq_def, habs]
  · intro hf
    rw [LRUCache.get.eq_def, habs]
    dsimp only
    rw [hf]
  · intro v st2 evs hf hset
    rw [LRUCache.get.eq_def, habs]
    dsimp only
    rw [hf]
    dsimp only
    rw [hset]

/-- Witness for C7: a concrete miss with no loader, a loader that misses,
and a loader hit that stores the loaded value. -/
theorem C7_miss_loader_witness :
    LRUCache.get capsSz (newLRUCache Int Int 5) 3 none =
      some ((none, false), newLRUCache Int Int 5, []) ∧
    LRUCache.get capsSz (newLRUCache Int Int 5) 3
        (some (fun x => if x = 4 then some 1 else none)) =
      some ((none, false), newLRUCache Int Int 5, []) ∧
    LRUCache.get capsSz (newLRUCache Int Int 5) 4
        (some (fun x => if x = 4 then some 1 else none)) =
      some ((some 1, true),
        ⟨[⟨4, 1, 1⟩], 1, 5⟩, []) := by
  have h3 := C7_miss_loader capsSz (newLRUCache Int Int 5) 3
    (fun x => if x = 4 then some 1 else none) (by decide)
  have h4 := C7_miss_loader capsSz (newLRUCache Int Int 5) 4
    (fun x => if x = 4 then some 1 else none) (by decide)
  refine ⟨h3.1, h3.2.1 (by decide), h4.2.2 1 ⟨[⟨4, 1, 1⟩], 1, 5⟩ [] (by decide) (by decide)⟩

/-! ### C8: idempotence of SetIfAbsent -/

/-- C8 counterexample: with capacity 1, `setIfAbsent(1, 2)` (size 2)
inserts and immediately evicts its own entry, so the second call
`setIfAbsent(1, 1)` finds the key absent and inserts the second value: the
value of the first call is not left in place, a fresh insert (not a mere
promotion) happens, and the recorded size changes from 0 to 1. -/
theorem C8_setIfAbsent_counterexample :
    LRUCache.setIfAbsent capsSz (newLRUCache Int Int 1) 1 2 =
      some (⟨[], 0, 1⟩, []) ∧
    LRUCache.setIfAbsent capsSz (⟨[], 0, 1⟩ : LRUCache Int Int) 1 1 =
      some (⟨[⟨1, 1, 1⟩], 1, 1⟩, []) ∧
    findEntry ([⟨1, 1, 1⟩] : List (Entry Int Int)) 1 = some ⟨1, 1, 1⟩ ∧
    ((1 : Int) ≠ 2) := by
  refine ⟨by decide, by decide, by decide, by decide⟩

/-- C8 amended: provided the key is still indexed when the second
`setIfAbsent` call runs (the first insert was not evicted in between), the
second call only promotes the existing entry — the one holding the value
left by the first call — to the MRU front, silently discards its value
argument, fires no purge notification, and leaves the entry (value and
recorded size) and the running total unchanged. -/
theorem C8_setIfAbsent_amended {K V : Type} [DecidableEq K] (c : Caps V)
    (st st1 : LRUCache K V) (k : K) (v1 v2 : V)
    (evs1 : List (V × PurgeReason)) (e : Entry K V)
    (hfirst : LRUCache.setIfAbsent c st k v1 = some (st1, evs1))
    (hfind : findEntry st1.list k = some e) :
    LRUCache.setIfAbsent c st1 k v2 =
      some (⟨e :: st1.list.eraseP (fun x => decide (x.key = k)),
        st1.size, st1.capacity⟩, []) ∧
    findEntry (e :: st1.list.eraseP (fun x => decide (x.key = k))) k = some e ∧
    ((e :: st1.list.eraseP (fun x => decide (x.key = k))).map
      (fun x => x.key)).head? = some k := by
  refine ⟨?_, ?_, ?_⟩
  · rw [LRUCache.setIfAbsent, hfind]
  · rw [findEntry]
    exact List.find?_cons_of_pos _ (by simp [(findEntry_some hfind).1])
  · simp [(findEntry_some hfind).1]

/-- Witness for C8 amended: two concrete `setIfAbsent` calls on the same
key where the first insert survives; the second call keeps the first value
in place and only promotes. -/
theorem C8_setIfAbsent_amended_witness :
    LRUCache.setIfAbsent capsSz (⟨[⟨1, 2, 2⟩], 2, 5⟩ : LRUCache Int Int) 1 9 =
      some (⟨[⟨1, 2, 2⟩], 2, 5⟩, []) := by
  have h := (C8_setIfAbsent_amended capsSz (newLRUCache Int Int 5)
    (⟨[⟨1, 2, 2⟩], 2, 5⟩ : LRUCache Int Int) 1 2 9 [] ⟨1, 2, 2⟩
    (by decide) (by decide)).1
  exact h

/-! ### C9: the shard capacity split -/

/-- The per-shard capacity list is the quotient for every shard except the
last, which also gets the remainder. -/
theorem assignedCaps_eq (n : Nat) (hn : 1 ≤ n) (q r : Int) :
    assignedCaps n q r = List.replicate (n - 1) q ++ [q + r] := by
  obtain ⟨m, rfl⟩ : ∃ m, n = m + 1 := ⟨n - 1, by omega⟩
  rw [assignedCaps, List.range_succ, List.map_append]
  have h1 : (List.range m).map
      (fun i => if i = m + 1 - 1 then q + r else q) = List.replicate m q := by
    rw [List.eq_replicate_iff]
    refine ⟨by simp, ?_⟩
    intro b hb
    obtain ⟨i, hi, rfl⟩ := List.mem_map.mp hb
    have him := List.mem_range.mp hi
    rw [if_neg (by omega)]
  rw [h1]
  simp

/-- The assigned shard capacities sum to the full quotient-and-remainder
split. -/
theorem assignedCaps_sum (n : Nat) (hn : 1 ≤ n) (q r : Int) :
    (assignedCaps n q r).sum = (n : Int) * q + r := by
  rw [assignedCaps_eq n hn q r, List.sum_append, List.sum_replicate]
  simp only [List.sum_cons, List.sum_nil, nsmul_eq_mul, add_zero]
  have : ((n - 1 : Nat) : Int) = (n : Int) - 1 := by omega
  rw [this]
  ring

/-- A completed engine `setCapacity` stores exactly the requested
capacity. -/
theorem setCapacity_capacity {K V : Type} (c : Caps V) {st st2 : LRUCache K V}
    {cap : Int} {evs : List (V × PurgeReason)}
    (h : LRUCache.setCapacity c st cap = some (st2, evs)) :
    st2.capacity = cap := by
  rw [LRUCache.setCapacity] at h
  obtain ⟨removed, -, -, -, h4, -⟩ := checkCapacity_spec c _ st2 evs h
  exact h4

/-- A completed pass of the router capacity loop assigns each shard exactly
its entry of the capacity list. -/
theorem setCapList_spec {K V : Type} (c : Caps V) :
    ∀ (caps : List Int) (shards : List (LRUCache K V))
      (out : List (LRUCache K V) × List (V × PurgeReason)),
      caps.length = shards.length →
      setCapList c caps shards = some out →
      out.1.map (fun s => s.capacity) = caps := by
  intro caps
  induction caps with
  | nil =>
    intro shards out hlen h
    cases shards with
    | nil =>
      rw [setCapList] at h
      simp only [Option.some.injEq] at h
      rw [← h]
      rfl
    | cons a rest => simp at hlen
  | cons cap caps ih =>
    intro shards out hlen h
    cases shards with
    | nil => simp at hlen
    | cons st rest =>
      rw [setCapList] at h
      split at h
      · simp at h
      · rename_i res heq
        split at h
        · simp at h
        · rename_i res2 heq2
          simp only [Option.some.injEq] at h
          rw [← h]
          simp only [List.map_cons, List.cons.injEq]
          refine ⟨setCapacity_capacity c (by rw [heq]), ?_⟩
          exact ih rest res2 (by simpa using hlen) heq2

/-- C9: both router construction (with the shard count coerced to at least
1) and the router `setCapacity` give every shard except the last the
truncated quotient of the capacity by the shard count, give the last shard
the quotient plus the remainder, and the shard capacities sum to the
requested total. -/
theorem C9_shard_capacity_split {K V : Type} (c : Caps V)
    (shardCount capacity cap2 : Int) (sh sh2 : ShardLRU K V)
    (evs : List (V × PurgeReason)) :
    ((newShardLRU K V shardCount capacity).cachelist.map (fun s => s.capacity) =
      List.replicate ((if shardCount < 1 then 1 else shardCount).toNat - 1)
        (Int.tdiv capacity (if shardCount < 1 then 1 else shardCount)) ++
        [Int.tdiv capacity (if shardCount < 1 then 1 else shardCount) +
          (capacity -
            Int.tdiv capacity (if shardCount < 1 then 1 else shardCount) *
            (if shardCount < 1 then 1 else shardCount))] ∧
     ((newShardLRU K V shardCount capacity).cachelist.map
        (fun s => s.capacity)).sum = capacity) ∧
    (1 ≤ sh.shardCount → sh.cachelist.length = sh.shardCount.toNat →
      ShardLRU.setCapacity c sh cap2 = some (sh2, evs) →
      sh2.cachelist.map (fun s => s.capacity) =
        List.replicate (sh.shardCount.toNat - 1) (Int.tdiv cap2 sh.shardCount) ++
          [Int.tdiv cap2 sh.shardCount +
            (cap2 - Int.tdiv cap2 sh.shardCount * sh.shardCount)] ∧
      (sh2.cachelist.map (fun s => s.capacity)).sum = cap2) := by
  constructor
  · have hn1 : 1 ≤ (if shardCount < 1 then 1 else shardCount) := by
      split <;> omega
    have hmap : (newShardLRU K V shardCount capacity).cachelist.map
        (fun s => s.capacity) =
        assignedCaps (if shardCount < 1 then 1 else shardCount).toNat
          (Int.tdiv capacity (if shardCount < 1 then 1 else shardCount))
          (capacity -
            Int.tdiv capacity (if shardCount < 1 then 1 else shardCount) *
            (if shardCount < 1 then 1 else shardCount)) := by
      simp only [newShardLRU, List.map_map]
      simp [Function.comp_def, newLRUCache]
    constructor
    · rw [hmap,
        assignedCaps_eq (if shardCount < 1 then 1 else shardCount).toNat (by omega)]
    · rw [hmap,
        assignedCaps_sum (if shardCount < 1 then 1 else shardCount).toNat (by omega)]
      have hc : (((if shardCount < 1 then 1 else shardCount).toNat : Nat) : Int) =
          (if shardCount < 1 then 1 else shardCount) :=
        Int.toNat_of_nonneg (by omega)
      rw [hc]
      ring
  · intro h1 h2 hset
    rw [ShardLRU.setCapacity] at hset
    split at hset
    · simp at hset
    · rename_i res heq
      simp only [Option.some.injEq, Prod.mk.injEq] at hset
      obtain ⟨hsh, hevs⟩ := hset
      have hlen : (assignedCaps sh.shardCount.toNat
          (Int.tdiv cap2 sh.shardCount)
          (cap2 - Int.tdiv cap2 sh.shardCount * sh.shardCount)).length =
          sh.cachelist.length := by
        simp [assignedCaps, h2]
      have hcaps := setCapList_spec c _ sh.cachelist res hlen heq
      have hres : sh2.cachelist = res.1 := by rw [← hsh]
      rw [hres, hcaps]
      constructor
      · exact assignedCaps_eq sh.shardCount.toNat (by omega) _ _
      · rw [assignedCaps_sum sh.shardCount.toNat (by omega)]
        have hc : ((sh.shardCount.toNat : Nat) : Int) = sh.shardCount :=
          Int.toNat_of_nonneg (by omega)
        rw [hc]
        ring

/-- Witness for C9: a concrete router setCapacity on a 3-shard router
splitting 11 as quotient 3 with remainder 2 on the last shard, summing to
11. -/
theorem C9_shard_capacity_split_witness :
    (newShardLRU Int Unit 3 10).cachelist.map (fun s => s.capacity) =
      [3, 3, 4] ∧
    ((⟨3, [newLRUCache Int Unit 3, newLRUCache Int Unit 3,
        newLRUCache Int Unit 5]⟩ : ShardLRU Int Unit).cachelist.map
      (fun s => s.capacity)).sum = 11 := by
  constructor
  · have h := ((C9_shard_capacity_split capsUnit 3 10 0
      (newShardLRU Int Unit 3 10) (newShardLRU Int Unit 3 10) []).1).1
    rw [h]
    decide
  · exact ((C9_shard_capacity_split capsUnit 3 10 11
      (newShardLRU Int Unit 3 10)
      ⟨3, [newLRUCache Int Unit 3, newLRUCache Int Unit 3,
        newLRUCache Int Unit 5]⟩ []).2 (by decide) (by decide) (by decide)).2

/-! ### C10: the loader result is returned even when evicted -/

/-- C10: whenever `get` on an unindexed key completes after a loader hit,
the returned pair is the loader value with `true` — independent of the
resulting state, hence also when the inserted entry was evicted again by
the capacity loop within the same call; concretely, at capacity 1 a loader
value of size 2 is returned as `(2, true)` while the state ends empty, so
the immediately following loaderless `get` reports `found = false`. -/
theorem C10_loader_value_returned {K V : Type} [DecidableEq K] (c : Caps V)
    (st st2 : LRUCache K V) (k : K) (f : K → Option V) (v : V)
    (r : Option V × Bool) (evs : List (V × PurgeReason)) :
    (findEntry st.list k = none → f k = some v →
      LRUCache.get c st k (some f) = some (r, st2, evs) →
      r = (some v, true)) ∧
    (LRUCache.get capsSz (newLRUCache Int Int 1) 9 (some (fun _ => some 2)) =
      some ((some 2, true), ⟨[], 0, 1⟩, []) ∧
     LRUCache.get capsSz (⟨[], 0, 1⟩ : LRUCache Int Int) 9 none =
      some ((none, false), ⟨[], 0, 1⟩, [])) := by
  constructor
  · intro habs hf hop
    rw [LRUCache.get.eq_def, habs] at hop
    dsimp only at hop
    rw [hf] at hop
    dsimp only at hop
    split at hop
    · simp at hop
    · rename_i res heq
      simp only [Option.some.injEq, Prod.mk.injEq] at hop
      exact hop.1.symm
  · exact ⟨by decide, by decide⟩

/-- Witness for C10: the general conjunct applied to the concrete
oversized-loader scenario. -/
theorem C10_loader_value_returned_witness :
    ((some (2 : Int), true) : Option Int × Bool) = (some 2, true) := by
  have h := (C10_loader_value_returned capsSz (newLRUCache Int Int 1)
    (⟨[], 0, 1⟩ : LRUCache Int Int) 9 (fun _ => some 2) 2 (some 2, true) []).1
    (by decide) (by decide) (by decide)
  exact h
